import Mathlib

/-!
Shallow embedding of the etread-front reading core: the chunking engines of
`TxtAdapter` and `EpubAdapter`, the EPUB DOM walk, the adapters' `loadChapter`
entry points, and the sliding-window `ChapterCache`.  Every definition mirrors
the corresponding TypeScript function; theorems settle the specification
claims about them.
-/

namespace Etread

/-- Constant `MAX_LAYER_LENGTH` from both adapters (maximum characters per layer). -/
def MAX_LAYER_LENGTH : Nat := 15000

/-- Structure `ContentLayer` from the data model: an ordered paragraph list, the global
start index of its first paragraph, and an optional image resource handle
(blob URL).  `image = none` embeds the TypeScript `undefined`. -/
structure ContentLayer where
  paragraphs : List String
  startIndex : Nat
  image : Option String := none
deriving DecidableEq

/-! ### Kernel-computable embeddings of the JavaScript string primitives

The adapters use `split`, `trim`, `startsWith`, `toLowerCase` and `join`.
These are embedded as plain per-character definitions (semantically the same
operations) so that concrete runs reduce definitionally. -/

/-- JS `text.split(c)`: split at every occurrence of `c`, keeping empty pieces. -/
def splitOnChar (c : Char) : List Char → List (List Char)
  | [] => [[]]
  | x :: rest =>
    let r := splitOnChar c rest
    if x = c then [] :: r
    else
      match r with
      | [] => [[x]]
      | y :: ys => (x :: y) :: ys

def jsSplit (c : Char) (s : String) : List String :=
  (splitOnChar c s.data).map String.mk

/-- JS `text.trim()`: strip whitespace from both ends. -/
def jsTrim (s : String) : String :=
  String.mk (((s.data.dropWhile Char.isWhitespace).reverse.dropWhile
    Char.isWhitespace).reverse)

/-- JS `text.startsWith(pre)`. -/
def strStartsWith (s pre : String) : Bool :=
  pre.data.isPrefixOf s.data

/-- JS `text.toLowerCase()` (basic-latin, as tag names are ASCII). -/
def lowerStr (s : String) : String :=
  String.mk (s.data.map Char.toLower)

def intercalateChars (sep : List Char) : List (List Char) → List Char
  | [] => []
  | [x] => x
  | x :: y :: rest => x ++ sep ++ intercalateChars sep (y :: rest)

/-- JS `parts.join(sep)`. -/
def jsJoin (sep : Char) (parts : List String) : String :=
  String.mk (intercalateChars [sep] (parts.map String.data))

/-- Total character count of a paragraph list (`reduce((sum, p) => sum + p.length, 0)`). -/
def paraSum (ps : List String) : Nat := (ps.map String.length).sum

/-- The index slot consumed by an optional image (one slot when present). -/
def imgBit : Option String → Nat
  | some _ => 1
  | none => 0

/-- First free global index after a layer: `startIndex + len(paragraphs) + (1 if image)`. -/
def nextIdx (L : ContentLayer) : Nat := L.startIndex + L.paragraphs.length + imgBit L.image

/-- The data-model index-continuity relation between two consecutive layers. -/
def layerChain (a b : ContentLayer) : Prop := b.startIndex = nextIdx a

instance : DecidableRel layerChain := fun a b => by
  unfold layerChain; infer_instance

/-- Concatenation of the paragraph arrays of a layer list, in order. -/
def flatParas (ls : List ContentLayer) : List String := (ls.map ContentLayer.paragraphs).flatten

@[simp] theorem flatParas_nil : flatParas [] = [] := rfl

@[simp] theorem flatParas_append (a b : List ContentLayer) :
    flatParas (a ++ b) = flatParas a ++ flatParas b := by
  simp [flatParas]

@[simp] theorem flatParas_cons (L : ContentLayer) (ls : List ContentLayer) :
    flatParas (L :: ls) = L.paragraphs ++ flatParas ls := by
  simp [flatParas]

@[simp] theorem paraSum_nil : paraSum [] = 0 := rfl

@[simp] theorem paraSum_append (a b : List String) :
    paraSum (a ++ b) = paraSum a + paraSum b := by
  simp [paraSum]

namespace TxtAdapter

/-- Loop state of `TxtAdapter.chunkParagraphs`: emitted layers, the pending
chunk, its cached character count, and the start index of the pending chunk. -/
structure ChunkState where
  layers : List ContentLayer
  currentChunk : List String
  currentChunkSize : Nat
  startIndex : Nat
deriving DecidableEq

/-- One iteration of the `for (const para of paragraphs)` loop in
`TxtAdapter.chunkParagraphs`: flush the pending chunk when adding `para` would
exceed `MAX_LAYER_LENGTH` and the chunk is non-empty, then append `para`. -/
def chunkStep (s : ChunkState) (para : String) : ChunkState :=
  let s :=
    if MAX_LAYER_LENGTH < s.currentChunkSize + para.length ∧ s.currentChunk ≠ [] then
      { layers := s.layers ++ [⟨s.currentChunk, s.startIndex, none⟩]
        currentChunk := []
        currentChunkSize := 0
        startIndex := s.startIndex + s.currentChunk.length }
    else s
  { s with
    currentChunk := s.currentChunk ++ [para]
    currentChunkSize := s.currentChunkSize + para.length }

/-- The `// Add remaining chunk` epilogue of `chunkParagraphs`. -/
def chunkFinish (s : ChunkState) : List ContentLayer :=
  if s.currentChunk ≠ [] then
    s.layers ++ [⟨s.currentChunk, s.startIndex, none⟩]
  else s.layers

/-- Method `TxtAdapter.chunkParagraphs`: greedy size-capped chunking of a paragraph
list into `ContentLayer`s (no images, start index 0), flushing the remainder. -/
def chunkParagraphs (paragraphs : List String) : List ContentLayer :=
  chunkFinish (paragraphs.foldl chunkStep ⟨[], [], 0, 0⟩)

end TxtAdapter

namespace EpubAdapter

/-- Loop state of the chunking branch of `EpubAdapter.addParagraphsWithChunking`. -/
structure EChunkState where
  newLayers : List ContentLayer
  currentChunk : List String
  currentChunkSize : Nat
  currentStartIndex : Nat
  isFirstChunk : Bool
deriving DecidableEq

/-- The flush block of `addParagraphsWithChunking` (`// Current chunk is full,
create a layer` — also reused verbatim by the `// Add remaining chunk`
epilogue): emit the pending chunk as a layer, attaching `image` and counting
its index slot only for the first flushed chunk. -/
def eFlush (image : Option String) (s : EChunkState) : EChunkState :=
  { newLayers := s.newLayers ++
      [⟨s.currentChunk, s.currentStartIndex, if s.isFirstChunk then image else none⟩]
    currentChunk := []
    currentChunkSize := 0
    currentStartIndex := s.currentStartIndex + s.currentChunk.length +
      (if s.isFirstChunk ∧ image.isSome then 1 else 0)
    isFirstChunk := false }

/-- One iteration of the chunking loop in `EpubAdapter.addParagraphsWithChunking`:
flush when over the cap and the chunk is non-empty, then append `para`. -/
def eChunkStep (image : Option String) (s : EChunkState) (para : String) : EChunkState :=
  let s :=
    if MAX_LAYER_LENGTH < s.currentChunkSize + para.length ∧ s.currentChunk ≠ [] then
      eFlush image s
    else s
  { s with
    currentChunk := s.currentChunk ++ [para]
    currentChunkSize := s.currentChunkSize + para.length }

/-- The `// Add remaining chunk` epilogue of `addParagraphsWithChunking`:
the produced layer list and the returned next free index. -/
def eChunkFinish (image : Option String) (s : EChunkState) : List ContentLayer × Nat :=
  if s.currentChunk ≠ [] then
    ((eFlush image s).newLayers, (eFlush image s).currentStartIndex)
  else (s.newLayers, s.currentStartIndex)

/-- Method `EpubAdapter.addParagraphsWithChunking`: the TypeScript method pushes the
produced layers onto its `layers` argument and returns the next free global
index; the embedding returns the pair (newly produced layers, next index), the
caller appending them. -/
def addParagraphsWithChunking (paragraphs : List String) (startIndex : Nat)
    (image : Option String) : List ContentLayer × Nat :=
  if paraSum paragraphs ≤ MAX_LAYER_LENGTH then
    ([⟨paragraphs, startIndex, image⟩],
      startIndex + paragraphs.length + (if image.isSome then 1 else 0))
  else
    eChunkFinish image (paragraphs.foldl (eChunkStep image) ⟨[], [], 0, startIndex, true⟩)

/-- Image-path resolution against the section's canonical path, from the
`img` branch of `EpubAdapter.traverseDOM`: external `http(s)` URLs fail
(`none`); a leading `/` is used verbatim; otherwise `..` pops a directory
segment, `.` and empty segments are skipped, and the rest are appended to the
section's directory.  `substring(0, lastIndexOf('/'))` (which yields `""` when
the base path has no slash) is embedded as drop-last-segment + rejoin. -/
def resolveImagePath (basePath src : String) : Option String :=
  if strStartsWith src "http://" ∨ strStartsWith src "https://" then none
  else if strStartsWith src "/" then some src
  else
    let sectionDir := jsJoin '/' ((jsSplit '/' basePath).dropLast)
    let parts := (jsSplit '/' sectionDir).filter (fun p => p ≠ "")
    let srcParts := jsSplit '/' src
    let finalParts := srcParts.foldl
      (fun acc part =>
        if part = ".." then acc.dropLast
        else if part ≠ "." ∧ part ≠ "" then acc ++ [part]
        else acc) parts
    some ("/" ++ jsJoin '/' finalParts)

/-- A DOM element as seen by `EpubAdapter.traverseDOM`: tag name, the `src`
attribute (for images; `none` embeds a missing attribute), the node's
`textContent`, and the list of child elements. -/
inductive DomNode where
  | mk (tag : String) (src : Option String) (text : String) (children : List DomNode)

def DomNode.tag : DomNode → String
  | .mk t _ _ _ => t

def DomNode.src : DomNode → Option String
  | .mk _ s _ _ => s

def DomNode.text : DomNode → String
  | .mk _ _ t _ => t

def DomNode.children : DomNode → List DomNode
  | .mk _ _ _ c => c

/-- State threaded through `traverseDOM`: the emitted layers, the pending
paragraph list (`currentParagraphs`), and the running global index. -/
structure WalkState where
  layers : List ContentLayer
  pending : List String
  globalIndex : Nat
deriving DecidableEq

/-- The regex test `/^h[1-6]$/` on a (lower-cased) tag name. -/
def isHeadingTag (tag : String) : Bool :=
  tag ∈ ["h1", "h2", "h3", "h4", "h5", "h6"]

/-- The paragraph/heading/bare-text branches of `traverseDOM`: push the
trimmed `textContent` when non-empty. -/
def pushText (text : String) (s : WalkState) : WalkState :=
  if jsTrim text ≠ "" then { s with pending := s.pending ++ [jsTrim text] } else s

/-- The `img` branch of `traverseDOM`.  `fetch` embeds
`archive.request(path, 'blob')` followed by `URL.createObjectURL`, returning
the minted blob URL, or `none` on failure (not found / not a Blob).  Every
failure — an external URL rejected by `resolveImagePath`, or a failed fetch —
is caught by the surrounding `try/catch`, which only logs: the state is
returned unchanged.  On success, pending paragraphs are flushed through
`addParagraphsWithChunking` with the image attached, or an image-only layer is
emitted when none are pending. -/
def handleImg (fetch : String → Option String) (basePath : String)
    (src : Option String) (s : WalkState) : WalkState :=
  match src with
  | none => s
  | some srcStr =>
    if srcStr = "" then s
    else
      match (resolveImagePath basePath srcStr).bind fetch with
      | none => s
      | some blobUrl =>
        if s.pending ≠ [] then
          let r := addParagraphsWithChunking s.pending s.globalIndex (some blobUrl)
          ⟨s.layers ++ r.1, [], r.2⟩
        else
          ⟨s.layers ++ [⟨[], s.globalIndex, some blobUrl⟩], s.pending, s.globalIndex + 1⟩

mutual

/-- Per-child dispatch of `EpubAdapter.traverseDOM`: paragraph and heading
elements push text, `img` elements run the image branch, containers recurse,
childless other elements push their bare text. -/
def processChild (fetch : String → Option String) (basePath : String)
    (c : DomNode) (s : WalkState) : WalkState :=
  match c with
  | .mk tag src text children =>
    let tagName := lowerStr tag
    if tagName = "p" then pushText text s
    else if isHeadingTag tagName then pushText text s
    else if tagName = "img" then handleImg fetch basePath src s
    else if 0 < children.length then walkChildren fetch basePath children s
    else pushText text s
termination_by sizeOf c

/-- The `for (const child of element.children)` loop of `traverseDOM`. -/
def walkChildren (fetch : String → Option String) (basePath : String)
    (l : List DomNode) (s : WalkState) : WalkState :=
  match l with
  | [] => s
  | c :: rest => walkChildren fetch basePath rest (processChild fetch basePath c s)
termination_by sizeOf l

end

/-- Method `EpubAdapter.parseHTML`: walk the body (absent body yields no layers),
then flush any remaining pending paragraphs without an image. -/
def parseHTML (fetch : String → Option String) (basePath : String)
    (body : Option DomNode) : List ContentLayer :=
  match body with
  | none => []
  | some b =>
    let s := walkChildren fetch basePath b.children ⟨[], [], 0⟩
    if s.pending ≠ [] then
      s.layers ++ (addParagraphsWithChunking s.pending s.globalIndex none).1
    else s.layers

end EpubAdapter

/-- The mutable view of a `UnifiedChapter` that the adapters and the cache
read and write: title, optional `href` locator, mirrored layers, `isLoaded`. -/
structure UnifiedChapterM where
  title : String
  href : Option String := none
  layers : List ContentLayer := []
  isLoaded : Bool := false
deriving DecidableEq

/-- A `UnifiedBook` as consumed by `loadChapter`: the chapter skeletons and
the decoded text of `rawData` (`decodeText` never fails — spec 4.1 — so the
decoded string stands in for the raw byte buffer). -/
structure UnifiedBookM where
  chapters : List UnifiedChapterM
  rawText : String := ""
deriving DecidableEq

namespace TxtAdapter

/-- Membership of a character in `[一二三四五六七八九十百千万0-9]`. -/
def isNumeralChar (ch : Char) : Bool :=
  ch ∈ ['一', '二', '三', '四', '五', '六', '七', '八', '九', '十', '百', '千', '万']
    ∨ ('0' ≤ ch ∧ ch ≤ '9')

/-- Membership of a character in `[章回节卷集部篇]`. -/
def isSectionChar (ch : Char) : Bool :=
  ch ∈ ['章', '回', '节', '卷', '集', '部', '篇']

/-- Test `CHAPTER_REGEX.test`: `/^第[一二三四五六七八九十百千万0-9]+[章回节卷集部篇].*/`.
The numeral class and the section-keyword class are disjoint, so the greedy
span needs no backtracking. -/
def chapterRegexTest (line : String) : Bool :=
  match line.toList with
  | [] => false
  | c :: rest =>
    c == '第' &&
      match rest.span isNumeralChar with
      | (nums, c2 :: _) => !nums.isEmpty && isSectionChar c2
      | (_, []) => false

/-- Method `TxtAdapter.findChapterBounds`: the start line is the line after the first
line whose trim equals the chapter title (0 when absent); the end line is the
first line at or after it whose trim equals the next chapter's title, or the
line count when this is the last chapter or the next title is not found. -/
def findChapterBounds (lines : List String) (chapterTitle : String)
    (chapterId : Nat) (allChapters : List UnifiedChapterM) : Nat × Nat :=
  let startLine :=
    match lines.findIdx? (fun l => jsTrim l = chapterTitle) with
    | some i => i + 1
    | none => 0
  let endLine :=
    if chapterId + 1 < allChapters.length then
      let nextTitle := ((allChapters[chapterId + 1]?).map UnifiedChapterM.title).getD ""
      match (lines.drop startLine).findIdx? (fun l => jsTrim l = nextTitle) with
      | some j => startLine + j
      | none => lines.length
    else lines.length
  (startLine, endLine)

/-- The paragraph-collection loop of `TxtAdapter.loadChapter`: each trimmed,
non-empty, non-heading line in `[startLine, endLine)` becomes one paragraph. -/
def collectParagraphs (lines : List String) (startLine endLine : Nat) : List String :=
  ((lines.drop startLine).take (endLine - startLine)).foldl
    (fun acc l =>
      let t := jsTrim l
      if chapterRegexTest t then acc
      else if t = "" then acc
      else acc ++ [t]) []

/-- Method `TxtAdapter.loadChapter`: throws (`Except.error`) exactly when the chapter
id indexes outside `book.chapters`; returns the mirrored layers when already
loaded; otherwise re-splits the decoded text and chunks the chapter's lines. -/
def loadChapter (book : UnifiedBookM) (chapterId : Nat) :
    Except String (List ContentLayer) :=
  match book.chapters[chapterId]? with
  | none => .error ("章节 " ++ toString chapterId ++ " 不存在")
  | some chapter =>
    if chapter.isLoaded ∧ chapter.layers ≠ [] then .ok chapter.layers
    else
      let lines := jsSplit '\n' book.rawText
      let bounds := findChapterBounds lines chapter.title chapterId book.chapters
      .ok (chunkParagraphs (collectParagraphs lines bounds.1 bounds.2))

end TxtAdapter

namespace EpubAdapter

/-- The outcome of resolving and loading the target section for one chapter,
embedding `spine.get` + `section.load` + `section.document`:
`notFound` (no section), `loadError` (an exception thrown while loading or
parsing), `emptyDoc` (a null document), or the parsed body with the section's
canonical base path. -/
inductive SectionResult where
  | notFound
  | loadError (msg : String)
  | emptyDoc
  | withDoc (basePath : String) (body : Option DomNode)

/-- Method `EpubAdapter.loadChapter`: throws exactly on an out-of-range chapter id;
returns mirrored layers when already loaded; otherwise resolves the section
(by the stored `href`, else by index — both folded into the `env` oracle) and
degrades every resolution/load/parse failure to a single diagnostic layer. -/
def loadChapter (env : Nat → Option String → SectionResult)
    (fetch : String → Option String) (book : UnifiedBookM) (chapterId : Nat) :
    Except String (List ContentLayer) :=
  match book.chapters[chapterId]? with
  | none => .error ("章节 " ++ toString chapterId ++ " 不存在")
  | some chapter =>
    if chapter.isLoaded ∧ chapter.layers ≠ [] then .ok chapter.layers
    else
      match env chapterId chapter.href with
      | .notFound =>
        .ok [⟨["章节 \"" ++ chapter.title ++ "\" 内容不存在或无法加载"], 0, none⟩]
      | .loadError msg =>
        .ok [⟨["章节 \"" ++ chapter.title ++ "\" 加载失败", "错误信息: " ++ msg], 0, none⟩]
      | .emptyDoc =>
        .ok [⟨["章节 \"" ++ chapter.title ++ "\" 内容为空"], 0, none⟩]
      | .withDoc basePath body => .ok (parseHTML fetch basePath body)

end EpubAdapter

namespace ChapterCache

/-- Structure `CacheEntry` of `ChapterCache`: chapter id, retained layers, and the
`lastAccess` timestamp (`Date.now()`). -/
structure CEntry where
  chapterId : Nat
  layers : List ContentLayer
  lastAccess : Nat
deriving DecidableEq

/-- Observable state of a `ChapterCache` and the book it mirrors into.  The
JavaScript `Map` is embedded as an association list in insertion order
(`Map` iteration order; in-place `lastAccess` updates keep the position, and
entries are only ever inserted at the end or deleted).  `revoked` records the
blob URLs passed to `URL.revokeObjectURL`, in order. -/
structure CacheState where
  cache : List CEntry
  chapters : List UnifiedChapterM
  prefetchQueue : List Nat
  revoked : List String
deriving DecidableEq

/-- The resident chapter ids, in insertion order. -/
def ids (s : CacheState) : List Nat := s.cache.map CEntry.chapterId

/-- The `for (const [chapterId, entry] of this.cache.entries())` minimum scan
of `evictIfNeeded`, started after the first entry: keep the current best
unless a later entry is strictly older.  Returns the first entry attaining
the minimum `lastAccess`. -/
def pickOlder (b : CEntry) : List CEntry → CEntry
  | [] => b
  | e :: rest => if e.lastAccess < b.lastAccess then pickOlder e rest else pickOlder b rest

/-- The whole minimum scan of `evictIfNeeded` (`oldestTime` starts at
`Infinity`, so the first entry always becomes the initial best); `none`
exactly when the cache is empty. -/
def findOldest : List CEntry → Option CEntry
  | [] => none
  | e :: rest => some (pickOlder e rest)

/-- Method `ChapterCache.cleanupBlobUrls`: revoke every `blob:` image URL found in
the **book mirror's** layers for the chapter (this reads
`this.book.chapters[chapterId].layers`, not the cache entry). -/
def cleanupBlobUrls (chapterId : Nat) (s : CacheState) : CacheState :=
  match s.chapters[chapterId]? with
  | none => s
  | some ch =>
    { s with
      revoked := s.revoked ++ ch.layers.filterMap (fun L =>
        match L.image with
        | some u => if strStartsWith u "blob:" then some u else none
        | none => none) }

/-- Clear a chapter mirror's layers and `isLoaded` flag (the eviction writes
`chapter.layers = []; chapter.isLoaded = false`, guarded by existence). -/
def clearMirror (chapterId : Nat) (s : CacheState) : CacheState :=
  match s.chapters[chapterId]? with
  | none => s
  | some ch => { s with chapters := s.chapters.set chapterId { ch with layers := [], isLoaded := false } }

/-- Method `ChapterCache.evictIfNeeded`: when more than `MAX_CACHE_SIZE = 5` entries
are resident, delete the entry with the smallest `lastAccess` (first minimum
in iteration order), clear the book mirror for it, and only then run
`cleanupBlobUrls` — which therefore reads the just-cleared mirror layers. -/
def evictIfNeeded (s : CacheState) : CacheState :=
  if s.cache.length ≤ 5 then s
  else
    match findOldest s.cache with
    | none => s
    | some e =>
      let s1 := { s with cache := s.cache.eraseP (fun x => x.chapterId == e.chapterId) }
      let s2 := clearMirror e.chapterId s1
      cleanupBlobUrls e.chapterId s2

/-- Method `ChapterCache.getChapter` at time `t`, with `load` standing for the
owning adapter's `loadChapter` on a cache miss (for a valid id both adapters
are total, so `load` returns the layer list).  A hit refreshes `lastAccess`
in place; a miss loads, inserts at the end, mirrors `layers`/`isLoaded` into
the book, then runs eviction.  An out-of-range id makes the adapter throw
before any state is written, leaving the state unchanged. -/
def getChapterStep (load : Nat → List ContentLayer) (t : Nat) (chapterId : Nat)
    (s : CacheState) : CacheState :=
  if (s.cache.find? (fun e => e.chapterId == chapterId)).isSome then
    { s with cache := s.cache.map (fun e =>
        if e.chapterId == chapterId then { e with lastAccess := t } else e) }
  else
    match s.chapters[chapterId]? with
    | none => s
    | some ch =>
      let layers := load chapterId
      let s1 := { s with
        cache := s.cache ++ [⟨chapterId, layers, t⟩]
        chapters := s.chapters.set chapterId { ch with layers := layers, isLoaded := true } }
      evictIfNeeded s1

/-- Method `ChapterCache.clear`: revoke the blob URLs of every resident chapter (via
`cleanupBlobUrls`, reading the book mirrors), then empty the cache map and
the prefetch in-flight set.  The book mirrors are not touched. -/
def clearCache (s : CacheState) : CacheState :=
  let s1 := s.cache.foldl (fun acc e => cleanupBlobUrls e.chapterId acc) s
  { s1 with cache := [], prefetchQueue := [] }

/-- Method `ChapterCache.getStats`. -/
def getStats (s : CacheState) : Nat × Nat × List Nat :=
  (s.cache.length, 5, ids s)

/-- One completed cache operation: a `getChapter` call (with its completion
time) or a `clear()`. -/
inductive CacheOp where
  | get (t : Nat) (chapterId : Nat)
  | clear

/-- Run one operation. -/
def runOp (load : Nat → List ContentLayer) (s : CacheState) : CacheOp → CacheState
  | .get t chapterId => getChapterStep load t chapterId s
  | .clear => clearCache s

/-- Run a finite sequence of completed operations. -/
def runOps (load : Nat → List ContentLayer) (ops : List CacheOp) (s : CacheState) : CacheState :=
  ops.foldl (runOp load) s

/-- The state of a freshly opened book: empty cache, empty in-flight set,
nothing revoked. -/
def initState (chapters : List UnifiedChapterM) : CacheState :=
  ⟨[], chapters, [], []⟩

end ChapterCache

/-! ## Invariants of the TxtAdapter chunking loop -/

namespace TxtAdapter

/-- Loop invariant of `chunkParagraphs`: the cached size is exact, the pending
chunk and every emitted multi-paragraph layer respect the cap, emitted layers
are non-empty, image-free, index-continuous, start at 0, and the pending start
index is the next free index after the emitted layers. -/
structure Inv (s : ChunkState) : Prop where
  size_eq : s.currentChunkSize = paraSum s.currentChunk
  chunk_cap : 2 ≤ s.currentChunk.length → paraSum s.currentChunk ≤ MAX_LAYER_LENGTH
  layers_cap : ∀ L ∈ s.layers, 2 ≤ L.paragraphs.length → paraSum L.paragraphs ≤ MAX_LAYER_LENGTH
  layers_ne : ∀ L ∈ s.layers, L.paragraphs ≠ [] ∧ L.image = none
  chain : List.Chain' layerChain s.layers
  start_zero : s.layers = [] → s.startIndex = 0
  last_next : ∀ L, s.layers.getLast? = some L → nextIdx L = s.startIndex
  head_zero : ∀ L, s.layers.head? = some L → L.startIndex = 0

theorem inv_init : Inv ⟨[], [], 0, 0⟩ := by
  refine ⟨rfl, ?_, ?_, ?_, ?_, ?_, ?_, ?_⟩ <;> simp

theorem chunkStep_pos (s : ChunkState) (para : String)
    (hc : MAX_LAYER_LENGTH < s.currentChunkSize + para.length ∧ s.currentChunk ≠ []) :
    chunkStep s para =
      { layers := s.layers ++ [⟨s.currentChunk, s.startIndex, none⟩]
        currentChunk := [para]
        currentChunkSize := para.length
        startIndex := s.startIndex + s.currentChunk.length } := by
  simp [chunkStep, hc]

theorem chunkStep_neg (s : ChunkState) (para : String)
    (hc : ¬(MAX_LAYER_LENGTH < s.currentChunkSize + para.length ∧ s.currentChunk ≠ [])) :
    chunkStep s para =
      { s with
        currentChunk := s.currentChunk ++ [para]
        currentChunkSize := s.currentChunkSize + para.length } := by
  simp [chunkStep, hc]

theorem inv_flush (s : ChunkState) (h : Inv s) (hne : s.currentChunk ≠ []) :
    Inv { layers := s.layers ++ [⟨s.currentChunk, s.startIndex, none⟩]
          currentChunk := ([] : List String)
          currentChunkSize := 0
          startIndex := s.startIndex + s.currentChunk.length } := by
  refine ⟨rfl, by simp, ?_, ?_, ?_, by simp, ?_, ?_⟩
  · intro L hL
    rcases List.mem_append.mp hL with hL | hL
    · exact h.layers_cap L hL
    · simp only [List.mem_singleton] at hL
      subst hL
      exact h.chunk_cap
  · intro L hL
    rcases List.mem_append.mp hL with hL | hL
    · exact h.layers_ne L hL
    · simp only [List.mem_singleton] at hL
      subst hL
      exact ⟨hne, rfl⟩
  · rw [List.chain'_append]
    refine ⟨h.chain, List.chain'_singleton _, ?_⟩
    intro x hx y hy
    simp only [List.head?_cons, Option.mem_def, Option.some.injEq] at hy
    subst hy
    show (ContentLayer.mk s.currentChunk s.startIndex none).startIndex = nextIdx x
    exact (h.last_next x (Option.mem_def.mp hx)).symm
  · intro L hL
    rw [List.getLast?_concat] at hL
    cases hL
    simp [nextIdx, imgBit]
  · intro L hL
    cases hsl : s.layers with
    | nil =>
      rw [hsl] at hL
      simp only [List.nil_append, List.head?_cons, Option.some.injEq] at hL
      subst hL
      exact h.start_zero hsl
    | cons a as =>
      rw [hsl] at hL
      simp only [List.cons_append, List.head?_cons, Option.some.injEq] at hL
      subst hL
      exact h.head_zero a (by rw [hsl]; rfl)

theorem inv_chunkStep (s : ChunkState) (para : String) (h : Inv s) : Inv (chunkStep s para) := by
  by_cases hc : MAX_LAYER_LENGTH < s.currentChunkSize + para.length ∧ s.currentChunk ≠ []
  · rw [chunkStep_pos s para hc]
    have h' := inv_flush s h hc.2
    refine ⟨by simp [paraSum], by simp, h'.layers_cap, h'.layers_ne, h'.chain, ?_, h'.last_next, h'.head_zero⟩
    intro habs
    simp at habs
  · rw [chunkStep_neg s para hc]
    refine ⟨by rw [h.size_eq]; simp [paraSum], ?_, h.layers_cap, h.layers_ne, h.chain,
      h.start_zero, h.last_next, h.head_zero⟩
    intro h2
    have h2' : 2 ≤ (s.currentChunk ++ [para]).length := h2
    show paraSum (s.currentChunk ++ [para]) ≤ MAX_LAYER_LENGTH
    by_cases hce : s.currentChunk = []
    · rw [hce] at h2'
      simp at h2'
    · have hle : s.currentChunkSize + para.length ≤ MAX_LAYER_LENGTH := by
        by_contra hgt
        exact hc ⟨Nat.lt_of_not_le hgt, hce⟩
      rw [h.size_eq] at hle
      simpa [paraSum] using hle

theorem inv_foldl (ps : List String) (s : ChunkState) (h : Inv s) :
    Inv (ps.foldl chunkStep s) := by
  induction ps generalizing s with
  | nil => exact h
  | cons p rest ih => exact ih (chunkStep s p) (inv_chunkStep s p h)

/-- The content seen so far: emitted layers' paragraphs plus the pending chunk. -/
def flatCS (s : ChunkState) : List String := flatParas s.layers ++ s.currentChunk

theorem flatCS_chunkStep (s : ChunkState) (para : String) :
    flatCS (chunkStep s para) = flatCS s ++ [para] := by
  by_cases hc : MAX_LAYER_LENGTH < s.currentChunkSize + para.length ∧ s.currentChunk ≠ []
  · rw [chunkStep_pos s para hc]
    simp [flatCS]
  · rw [chunkStep_neg s para hc]
    simp [flatCS]

theorem flatCS_foldl (ps : List String) (s : ChunkState) :
    flatCS (ps.foldl chunkStep s) = flatCS s ++ ps := by
  induction ps generalizing s with
  | nil => simp
  | cons p rest ih =>
    rw [List.foldl_cons, ih (chunkStep s p), flatCS_chunkStep]
    simp

theorem flatParas_chunkFinish (s : ChunkState) : flatParas (chunkFinish s) = flatCS s := by
  unfold chunkFinish flatCS
  split
  · simp
  · next hch =>
    rw [Decidable.not_not] at hch
    rw [hch, List.append_nil]

/-- Round-trip law for `TxtAdapter.chunkParagraphs`. -/
theorem chunkParagraphs_flat (ps : List String) :
    flatParas (chunkParagraphs ps) = ps := by
  unfold chunkParagraphs
  rw [flatParas_chunkFinish, flatCS_foldl]
  simp [flatCS]

theorem inv_chunkFinish (s : ChunkState) (h : Inv s) :
    (∀ L ∈ chunkFinish s, 2 ≤ L.paragraphs.length → paraSum L.paragraphs ≤ MAX_LAYER_LENGTH)
    ∧ (∀ L ∈ chunkFinish s, L.paragraphs ≠ [] ∧ L.image = none)
    ∧ List.Chain' layerChain (chunkFinish s)
    ∧ (∀ L, (chunkFinish s).head? = some L → L.startIndex = 0) := by
  unfold chunkFinish
  split
  · next hch =>
    have h' := inv_flush s h hch
    exact ⟨h'.layers_cap, h'.layers_ne, h'.chain, h'.head_zero⟩
  · exact ⟨h.layers_cap, h.layers_ne, h.chain, h.head_zero⟩

/-- The facts `Inv` yields about the finished layer list of `chunkParagraphs`. -/
theorem chunkParagraphs_inv (ps : List String) :
    (∀ L ∈ chunkParagraphs ps, 2 ≤ L.paragraphs.length → paraSum L.paragraphs ≤ MAX_LAYER_LENGTH)
    ∧ (∀ L ∈ chunkParagraphs ps, L.paragraphs ≠ [] ∧ L.image = none)
    ∧ List.Chain' layerChain (chunkParagraphs ps)
    ∧ (∀ L, (chunkParagraphs ps).head? = some L → L.startIndex = 0) :=
  inv_chunkFinish _ (inv_foldl ps ⟨[], [], 0, 0⟩ inv_init)

end TxtAdapter

/-! ## Invariants of the EpubAdapter chunking loop -/

namespace EpubAdapter

theorem imgBit_if (b : Bool) (image : Option String) :
    imgBit (if b then image else none) = if b ∧ image.isSome then 1 else 0 := by
  cases b <;> cases image <;> simp [imgBit]

/-- Loop invariant of the chunking branch of `addParagraphsWithChunking`,
relative to the requested start index `start0` and the optional `image`. -/
structure EInv (start0 : Nat) (image : Option String) (s : EChunkState) : Prop where
  size_eq : s.currentChunkSize = paraSum s.currentChunk
  chunk_cap : 2 ≤ s.currentChunk.length → paraSum s.currentChunk ≤ MAX_LAYER_LENGTH
  layers_cap : ∀ L ∈ s.newLayers, 2 ≤ L.paragraphs.length → paraSum L.paragraphs ≤ MAX_LAYER_LENGTH
  chain : List.Chain' layerChain s.newLayers
  start_first : s.newLayers = [] → s.currentStartIndex = start0 ∧ s.isFirstChunk = true
  last_next : ∀ L, s.newLayers.getLast? = some L → nextIdx L = s.currentStartIndex
  head_start : ∀ L, s.newLayers.head? = some L → L.startIndex = start0

theorem einv_init (start0 : Nat) (image : Option String) :
    EInv start0 image ⟨[], [], 0, start0, true⟩ := by
  refine ⟨rfl, ?_, ?_, ?_, ?_, ?_, ?_⟩ <;> simp

theorem einv_eFlush (start0 : Nat) (image : Option String) (s : EChunkState)
    (h : EInv start0 image s) : EInv start0 image (eFlush image s) := by
  refine ⟨rfl, by simp [eFlush], ?_, ?_, ?_, ?_, ?_⟩
  · intro L hL
    rcases List.mem_append.mp hL with hL | hL
    · exact h.layers_cap L hL
    · simp only [List.mem_singleton] at hL
      subst hL
      exact h.chunk_cap
  · show List.Chain' layerChain (s.newLayers ++ [_])
    rw [List.chain'_append]
    refine ⟨h.chain, List.chain'_singleton _, ?_⟩
    intro x hx y hy
    simp only [List.head?_cons, Option.mem_def, Option.some.injEq] at hy
    subst hy
    show (ContentLayer.mk s.currentChunk s.currentStartIndex
      (if s.isFirstChunk then image else none)).startIndex = nextIdx x
    exact (h.last_next x (Option.mem_def.mp hx)).symm
  · intro habs
    simp [eFlush] at habs
  · intro L hL
    simp only [eFlush, List.getLast?_concat, Option.some.injEq] at hL
    subst hL
    simp only [nextIdx, eFlush, imgBit_if]
  · intro L hL
    simp only [eFlush] at hL
    cases hsl : s.newLayers with
    | nil =>
      rw [hsl] at hL
      simp only [List.nil_append, List.head?_cons, Option.some.injEq] at hL
      subst hL
      exact (h.start_first hsl).1
    | cons a as =>
      rw [hsl] at hL
      simp only [List.cons_append, List.head?_cons, Option.some.injEq] at hL
      subst hL
      exact h.head_start a (by rw [hsl]; rfl)

theorem eChunkStep_pos (image : Option String) (s : EChunkState) (para : String)
    (hc : MAX_LAYER_LENGTH < s.currentChunkSize + para.length ∧ s.currentChunk ≠ []) :
    eChunkStep image s para =
      { eFlush image s with currentChunk := [para], currentChunkSize := para.length } := by
  simp [eChunkStep, hc, eFlush]

theorem eChunkStep_neg (image : Option String) (s : EChunkState) (para : String)
    (hc : ¬(MAX_LAYER_LENGTH < s.currentChunkSize + para.length ∧ s.currentChunk ≠ [])) :
    eChunkStep image s para =
      { s with
        currentChunk := s.currentChunk ++ [para]
        currentChunkSize := s.currentChunkSize + para.length } := by
  simp [eChunkStep, hc]

theorem einv_eChunkStep (start0 : Nat) (image : Option String) (s : EChunkState) (para : String)
    (h : EInv start0 image s) : EInv start0 image (eChunkStep image s para) := by
  by_cases hc : MAX_LAYER_LENGTH < s.currentChunkSize + para.length ∧ s.currentChunk ≠ []
  · rw [eChunkStep_pos image s para hc]
    have h' := einv_eFlush start0 image s h
    exact ⟨by simp [paraSum], by simp, h'.layers_cap, h'.chain, h'.start_first,
      h'.last_next, h'.head_start⟩
  · rw [eChunkStep_neg image s para hc]
    refine ⟨by rw [h.size_eq]; simp [paraSum], ?_, h.layers_cap, h.chain,
      h.start_first, h.last_next, h.head_start⟩
    intro h2
    have h2' : 2 ≤ (s.currentChunk ++ [para]).length := h2
    show paraSum (s.currentChunk ++ [para]) ≤ MAX_LAYER_LENGTH
    by_cases hce : s.currentChunk = []
    · rw [hce] at h2'
      simp at h2'
    · have hle : s.currentChunkSize + para.length ≤ MAX_LAYER_LENGTH := by
        by_contra hgt
        exact hc ⟨Nat.lt_of_not_le hgt, hce⟩
      rw [h.size_eq] at hle
      simpa [paraSum] using hle

theorem einv_foldl (start0 : Nat) (image : Option String) (ps : List String) (s : EChunkState)
    (h : EInv start0 image s) : EInv start0 image (ps.foldl (eChunkStep image) s) := by
  induction ps generalizing s with
  | nil => exact h
  | cons p rest ih => exact ih (eChunkStep image s p) (einv_eChunkStep start0 image s p h)

/-- The content seen so far by the Epub chunking loop. -/
def eFlatCS (s : EChunkState) : List String := flatParas s.newLayers ++ s.currentChunk

theorem eFlatCS_eChunkStep (image : Option String) (s : EChunkState) (para : String) :
    eFlatCS (eChunkStep image s para) = eFlatCS s ++ [para] := by
  by_cases hc : MAX_LAYER_LENGTH < s.currentChunkSize + para.length ∧ s.currentChunk ≠ []
  · rw [eChunkStep_pos image s para hc]
    simp [eFlatCS, eFlush]
  · rw [eChunkStep_neg image s para hc]
    simp [eFlatCS]

theorem eFlatCS_foldl (image : Option String) (ps : List String) (s : EChunkState) :
    eFlatCS (ps.foldl (eChunkStep image) s) = eFlatCS s ++ ps := by
  induction ps generalizing s with
  | nil => simp
  | cons p rest ih =>
    rw [List.foldl_cons, ih (eChunkStep image s p), eFlatCS_eChunkStep]
    simp

theorem eChunkStep_chunk_ne (image : Option String) (s : EChunkState) (para : String) :
    (eChunkStep image s para).currentChunk ≠ [] := by
  by_cases hc : MAX_LAYER_LENGTH < s.currentChunkSize + para.length ∧ s.currentChunk ≠ []
  · rw [eChunkStep_pos image s para hc]
    simp
  · rw [eChunkStep_neg image s para hc]
    simp

theorem eChunk_foldl_chunk_ne (image : Option String) (ps : List String) (s : EChunkState)
    (h : ps ≠ [] ∨ s.currentChunk ≠ []) :
    ((ps.foldl (eChunkStep image) s).currentChunk ≠ []) := by
  induction ps generalizing s with
  | nil =>
    rcases h with h | h
    · exact absurd rfl h
    · exact h
  | cons p rest ih =>
    rw [List.foldl_cons]
    exact ih (eChunkStep image s p) (Or.inr (eChunkStep_chunk_ne image s p))

/-! ### Specification of `addParagraphsWithChunking` -/

theorem addChunk_flat (ps : List String) (start : Nat) (image : Option String) :
    flatParas (addParagraphsWithChunking ps start image).1 = ps := by
  unfold addParagraphsWithChunking
  split
  · simp
  · have hflat := eFlatCS_foldl image ps ⟨[], [], 0, start, true⟩
    simp only [eFlatCS, flatParas_nil, List.nil_append, List.append_nil] at hflat
    unfold eChunkFinish
    split
    · simpa [eFlush, eFlatCS] using hflat
    · next hch =>
      rw [Decidable.not_not] at hch
      rw [hch, List.append_nil] at hflat
      exact hflat

theorem addChunk_cap (ps : List String) (start : Nat) (image : Option String) :
    ∀ L ∈ (addParagraphsWithChunking ps start image).1,
      2 ≤ L.paragraphs.length → paraSum L.paragraphs ≤ MAX_LAYER_LENGTH := by
  unfold addParagraphsWithChunking
  split
  · next hle =>
    intro L hL
    simp only [List.mem_singleton] at hL
    subst hL
    intro _
    exact hle
  · have h := einv_foldl start image ps ⟨[], [], 0, start, true⟩ (einv_init start image)
    unfold eChunkFinish
    split
    · exact (einv_eFlush start image _ h).layers_cap
    · exact h.layers_cap

theorem addChunk_chain (ps : List String) (start : Nat) (image : Option String) :
    List.Chain' layerChain (addParagraphsWithChunking ps start image).1 := by
  unfold addParagraphsWithChunking
  split
  · exact List.chain'_singleton _
  · have h := einv_foldl start image ps ⟨[], [], 0, start, true⟩ (einv_init start image)
    unfold eChunkFinish
    split
    · exact (einv_eFlush start image _ h).chain
    · exact h.chain

theorem addChunk_ne (ps : List String) (start : Nat) (image : Option String) :
    (addParagraphsWithChunking ps start image).1 ≠ [] := by
  unfold addParagraphsWithChunking
  split
  · simp
  · next hgt =>
    have hps : ps ≠ [] := by
      intro habs
      subst habs
      simp [paraSum] at hgt
    have hch := eChunk_foldl_chunk_ne image ps ⟨[], [], 0, start, true⟩ (Or.inl hps)
    unfold eChunkFinish
    split
    · simp [eFlush]
    · next hcon => exact absurd hch (by simpa using hcon)

theorem addChunk_head (ps : List String) (start : Nat) (image : Option String) :
    ∀ L, (addParagraphsWithChunking ps start image).1.head? = some L → L.startIndex = start := by
  unfold addParagraphsWithChunking
  split
  · intro L hL
    simp only [List.head?_cons, Option.some.injEq] at hL
    subst hL
    rfl
  · have h := einv_foldl start image ps ⟨[], [], 0, start, true⟩ (einv_init start image)
    unfold eChunkFinish
    split
    · exact (einv_eFlush start image _ h).head_start
    · exact h.head_start

theorem addChunk_last (ps : List String) (start : Nat) (image : Option String) :
    ∀ L, (addParagraphsWithChunking ps start image).1.getLast? = some L →
      nextIdx L = (addParagraphsWithChunking ps start image).2 := by
  unfold addParagraphsWithChunking
  split
  · intro L hL
    simp only [List.getLast?_singleton, Option.some.injEq] at hL
    subst hL
    show nextIdx ⟨ps, start, image⟩ = start + ps.length + (if image.isSome then 1 else 0)
    unfold nextIdx
    cases image <;> simp [imgBit]
  · have h := einv_foldl start image ps ⟨[], [], 0, start, true⟩ (einv_init start image)
    unfold eChunkFinish
    split
    · exact (einv_eFlush start image _ h).last_next
    · exact h.last_next

/-- Case equation for the `img` branch with a present `src` attribute. -/
theorem handleImg_some (fetch : String → Option String) (basePath : String)
    (srcStr : String) (s : WalkState) :
    handleImg fetch basePath (some srcStr) s =
      if srcStr = "" then s
      else
        match (resolveImagePath basePath srcStr).bind fetch with
        | none => s
        | some blobUrl =>
          if s.pending ≠ [] then
            ⟨s.layers ++ (addParagraphsWithChunking s.pending s.globalIndex (some blobUrl)).1,
              [], (addParagraphsWithChunking s.pending s.globalIndex (some blobUrl)).2⟩
          else ⟨s.layers ++ [⟨[], s.globalIndex, some blobUrl⟩], s.pending, s.globalIndex + 1⟩ := by
  unfold handleImg
  rfl

/-! ### Index continuity through the DOM walk -/

/-- Walk invariant: the emitted layers are index-continuous and the running
global index is the next free index after the last emitted layer. -/
def WInv (s : WalkState) : Prop :=
  List.Chain' layerChain s.layers ∧
    ∀ L, s.layers.getLast? = some L → nextIdx L = s.globalIndex

/-- Appending an index-continuous block that starts at the running index and
ends at the new running index preserves the walk invariant. -/
theorem winv_append (s : WalkState) (pend : List String) (new : List ContentLayer) (next : Nat)
    (h : WInv s)
    (hch : List.Chain' layerChain new)
    (hhead : ∀ L, new.head? = some L → L.startIndex = s.globalIndex)
    (hlast : ∀ L, new.getLast? = some L → nextIdx L = next)
    (hnil : new = [] → next = s.globalIndex) :
    WInv ⟨s.layers ++ new, pend, next⟩ := by
  constructor
  · rw [List.chain'_append]
    refine ⟨h.1, hch, ?_⟩
    intro x hx y hy
    show y.startIndex = nextIdx x
    rw [hhead y (Option.mem_def.mp hy)]
    exact (h.2 x (Option.mem_def.mp hx)).symm
  · intro L hL
    by_cases hne : new = []
    · subst hne
      rw [List.append_nil] at hL
      rw [hnil rfl]
      exact h.2 L hL
    · rw [List.getLast?_append_of_ne_nil _ hne] at hL
      exact hlast L hL

theorem winv_pushText (text : String) (s : WalkState) (h : WInv s) :
    WInv (pushText text s) := by
  unfold pushText
  split
  · exact h
  · exact h

theorem winv_handleImg (fetch : String → Option String) (basePath : String)
    (src : Option String) (s : WalkState) (h : WInv s) :
    WInv (handleImg fetch basePath src s) := by
  unfold handleImg
  split
  · exact h
  · split
    · exact h
    · split
      · exact h
      · next srcStr blobUrl hbu =>
        split
        · exact winv_append s [] _ _ h (addChunk_chain _ _ _) (addChunk_head _ _ _)
            (addChunk_last _ _ _) (fun habs => absurd habs (addChunk_ne _ _ _))
        · refine winv_append s s.pending [⟨[], s.globalIndex, some blobUrl⟩] (s.globalIndex + 1) h
            (List.chain'_singleton _) ?_ ?_ (by simp)
          · intro L hL
            simp only [List.head?_cons, Option.some.injEq] at hL
            subst hL
            rfl
          · intro L hL
            simp only [List.getLast?_singleton, Option.some.injEq] at hL
            subst hL
            simp [nextIdx, imgBit]

mutual

theorem winv_processChild (fetch : String → Option String) (basePath : String)
    (c : DomNode) (s : WalkState) (h : WInv s) :
    WInv (processChild fetch basePath c s) := by
  unfold processChild
  match c with
  | .mk tag src text children =>
    simp only []
    split
    · exact winv_pushText text s h
    · split
      · exact winv_pushText text s h
      · split
        · exact winv_handleImg fetch basePath src s h
        · split
          · exact winv_walkChildren fetch basePath children s h
          · exact winv_pushText text s h
termination_by sizeOf c

theorem winv_walkChildren (fetch : String → Option String) (basePath : String)
    (l : List DomNode) (s : WalkState) (h : WInv s) :
    WInv (walkChildren fetch basePath l s) := by
  unfold walkChildren
  match l with
  | [] => exact h
  | c :: rest =>
    simp only []
    exact winv_walkChildren fetch basePath rest (processChild fetch basePath c s)
      (winv_processChild fetch basePath c s h)
termination_by sizeOf l

end

/-- The layer list returned for any parsed EPUB body is index-continuous. -/
theorem parseHTML_chain (fetch : String → Option String) (basePath : String)
    (body : Option DomNode) :
    List.Chain' layerChain (parseHTML fetch basePath body) := by
  unfold parseHTML
  match body with
  | none => exact List.chain'_nil
  | some b =>
    simp only []
    have hw : WInv (walkChildren fetch basePath b.children ⟨[], [], 0⟩) :=
      winv_walkChildren fetch basePath b.children ⟨[], [], 0⟩ ⟨List.chain'_nil, by simp⟩
    split
    · exact (winv_append _ [] _ _ hw (addChunk_chain _ _ _) (addChunk_head _ _ _)
        (addChunk_last _ _ _) (fun habs => absurd habs (addChunk_ne _ _ _))).1
    · exact hw.1

end EpubAdapter

/-! ## ChapterCache: LRU scan, eviction and invariants -/

namespace ChapterCache

theorem pickOlder_cons (b e : CEntry) (rest : List CEntry) :
    pickOlder b (e :: rest) =
      if e.lastAccess < b.lastAccess then pickOlder e rest else pickOlder b rest := rfl

theorem pickOlder_min (l : List CEntry) : ∀ b : CEntry,
    (pickOlder b l).lastAccess ≤ b.lastAccess
      ∧ ∀ x ∈ l, (pickOlder b l).lastAccess ≤ x.lastAccess := by
  induction l with
  | nil => exact fun b => ⟨Nat.le_refl _, by simp⟩
  | cons e rest ih =>
    intro b
    rw [pickOlder_cons]
    by_cases hlt : e.lastAccess < b.lastAccess
    · rw [if_pos hlt]
      refine ⟨Nat.le_trans (ih e).1 (Nat.le_of_lt hlt), ?_⟩
      intro x hx
      rcases List.mem_cons.mp hx with hx | hx
      · subst hx
        exact (ih x).1
      · exact (ih e).2 x hx
    · rw [if_neg hlt]
      refine ⟨(ih b).1, ?_⟩
      intro x hx
      rcases List.mem_cons.mp hx with hx | hx
      · subst hx
        exact Nat.le_trans (ih b).1 (Nat.le_of_not_lt hlt)
      · exact (ih b).2 x hx

theorem pickOlder_stable (l : List CEntry) : ∀ b : CEntry,
    ∃ pre post, b :: l = pre ++ (pickOlder b l) :: post
      ∧ ∀ x ∈ pre, (pickOlder b l).lastAccess < x.lastAccess := by
  induction l with
  | nil => exact fun b => ⟨[], [], rfl, by simp⟩
  | cons e rest ih =>
    intro b
    rw [pickOlder_cons]
    by_cases hlt : e.lastAccess < b.lastAccess
    · rw [if_pos hlt]
      obtain ⟨pre, post, hdec, hpre⟩ := ih e
      refine ⟨b :: pre, post, by rw [List.cons_append, ← hdec], ?_⟩
      intro x hx
      rcases List.mem_cons.mp hx with hx | hx
      · subst hx
        exact Nat.lt_of_le_of_lt (pickOlder_min rest e).1 hlt
      · exact hpre x hx
    · rw [if_neg hlt]
      obtain ⟨pre, post, hdec, hpre⟩ := ih b
      cases pre with
      | nil =>
        rw [List.nil_append, List.cons.injEq] at hdec
        refine ⟨[], e :: post, ?_, by simp⟩
        rw [List.nil_append, ← hdec.1, hdec.2]
      | cons p ptail =>
        rw [List.cons_append, List.cons.injEq] at hdec
        refine ⟨b :: e :: ptail, post, ?_, ?_⟩
        · conv_lhs => rw [hdec.2]
          simp
        · have hb : (pickOlder b rest).lastAccess < b.lastAccess := by
            have hp := hpre p (List.mem_cons_self p ptail)
            rw [← hdec.1] at hp
            exact hp
          intro x hx
          rcases List.mem_cons.mp hx with hx | hx
          · subst hx
            exact hb
          · rcases List.mem_cons.mp hx with hx | hx
            · subst hx
              exact Nat.lt_of_lt_of_le hb (Nat.le_of_not_lt hlt)
            · exact hpre x (List.mem_cons_of_mem p hx)

theorem pickOlder_mem (b : CEntry) (l : List CEntry) : pickOlder b l ∈ b :: l := by
  obtain ⟨pre, post, hdec, _⟩ := pickOlder_stable l b
  rw [hdec]
  exact List.mem_append_right pre (List.mem_cons_self _ _)

theorem cleanupBlobUrls_cache (chapterId : Nat) (s : CacheState) :
    (cleanupBlobUrls chapterId s).cache = s.cache := by
  unfold cleanupBlobUrls
  split <;> rfl

theorem cleanupBlobUrls_chapters (chapterId : Nat) (s : CacheState) :
    (cleanupBlobUrls chapterId s).chapters = s.chapters := by
  unfold cleanupBlobUrls
  split <;> rfl

theorem clearMirror_cache (chapterId : Nat) (s : CacheState) :
    (clearMirror chapterId s).cache = s.cache := by
  unfold clearMirror
  split <;> rfl

theorem clearMirror_chapters_length (chapterId : Nat) (s : CacheState) :
    (clearMirror chapterId s).chapters.length = s.chapters.length := by
  unfold clearMirror
  split
  · rfl
  · simp [List.length_set]

/-- With pairwise-distinct resident ids, deleting the picked entry from the
map removes exactly that entry from the association list. -/
theorem eraseP_of_stable (pre post : List CEntry) (e : CEntry)
    (hnd : ((pre ++ e :: post).map CEntry.chapterId).Nodup) :
    (pre ++ e :: post).eraseP (fun x => x.chapterId == e.chapterId) = pre ++ post := by
  rw [List.map_append, List.map_cons] at hnd
  have hpre : ∀ x ∈ pre, ¬((fun x => x.chapterId == e.chapterId) x = true) := by
    intro x hx habs
    have hxe : x.chapterId = e.chapterId := by simpa using habs
    have hdisj := (List.nodup_append.mp hnd).2.2
    exact hdisj (List.mem_map_of_mem CEntry.chapterId hx)
      (by rw [hxe]; exact List.mem_cons_self _ _)
  rw [List.eraseP_append_right _ hpre, List.eraseP_cons_of_pos]
  simp

theorem evictIfNeeded_of_le (s : CacheState) (h : s.cache.length ≤ 5) :
    evictIfNeeded s = s := by
  unfold evictIfNeeded
  rw [if_pos h]

/-- Unfolding of eviction when over capacity: the cache splits around the
first least-recently-used entry; that entry is removed, its mirror cleared,
and `cleanupBlobUrls` runs on the already-cleared mirror. -/
theorem evictIfNeeded_of_gt (s : CacheState) (hgt : ¬ s.cache.length ≤ 5)
    (hnd : (ids s).Nodup) :
    ∃ e pre post, s.cache = pre ++ e :: post
      ∧ (∀ x ∈ s.cache, e.lastAccess ≤ x.lastAccess)
      ∧ (∀ x ∈ pre, e.lastAccess < x.lastAccess)
      ∧ evictIfNeeded s =
          cleanupBlobUrls e.chapterId
            (clearMirror e.chapterId { s with cache := pre ++ post }) := by
  cases hc : s.cache with
  | nil =>
    exfalso
    rw [hc] at hgt
    simp at hgt
  | cons c rest =>
    obtain ⟨pre, post, hdec, hpre⟩ := pickOlder_stable rest c
    have hnd' : ((c :: rest).map CEntry.chapterId).Nodup := by
      rw [← hc]
      exact hnd
    have herase : (c :: rest).eraseP
        (fun x => x.chapterId == (pickOlder c rest).chapterId) = pre ++ post := by
      rw [hdec]
      exact eraseP_of_stable pre post (pickOlder c rest) (by rw [← hdec]; exact hnd')
    refine ⟨pickOlder c rest, pre, post, hdec, ?_, hpre, ?_⟩
    · intro x hx
      rcases List.mem_cons.mp hx with hx | hx
      · subst hx
        exact (pickOlder_min rest x).1
      · exact (pickOlder_min rest c).2 x hx
    · unfold evictIfNeeded
      rw [if_neg hgt, hc]
      have hfo : findOldest (c :: rest) = some (pickOlder c rest) := rfl
      rw [hfo]
      show cleanupBlobUrls (pickOlder c rest).chapterId
          (clearMirror (pickOlder c rest).chapterId
            { s with cache := ((c :: rest).eraseP
                (fun x => x.chapterId == (pickOlder c rest).chapterId)) }) =
        cleanupBlobUrls (pickOlder c rest).chapterId
          (clearMirror (pickOlder c rest).chapterId { s with cache := pre ++ post })
      rw [herase]

theorem evictIfNeeded_cache_length (s : CacheState) (hnd : (ids s).Nodup) :
    (evictIfNeeded s).cache.length =
      if s.cache.length ≤ 5 then s.cache.length else s.cache.length - 1 := by
  by_cases h : s.cache.length ≤ 5
  · rw [evictIfNeeded_of_le s h, if_pos h]
  · obtain ⟨e, pre, post, hdec, _, _, heq⟩ := evictIfNeeded_of_gt s h hnd
    rw [heq, if_neg h, cleanupBlobUrls_cache, clearMirror_cache]
    show (pre ++ post).length = s.cache.length - 1
    rw [hdec]
    simp only [List.length_append, List.length_cons]
    omega

/-- Refreshing one entry's `lastAccess` in place keeps the resident id list. -/
theorem ids_refresh (t chapterId : Nat) (s : CacheState) :
    ids { s with cache := s.cache.map (fun e =>
      if e.chapterId == chapterId then { e with lastAccess := t } else e) } = ids s := by
  show (s.cache.map _).map CEntry.chapterId = s.cache.map CEntry.chapterId
  rw [List.map_map]
  apply List.map_congr_left
  intro e _
  simp only [Function.comp]
  split <;> rfl

/-- Well-formedness of a cache state: resident ids index real chapters, are
pairwise distinct, and the book mirror's `isLoaded` flag is set exactly for
the resident ids. -/
def Wf (s : CacheState) : Prop :=
  (∀ i ∈ ids s, i < s.chapters.length)
  ∧ (ids s).Nodup
  ∧ (∀ i : Nat, i ∈ ids s ↔ ∃ c, s.chapters[i]? = some c ∧ c.isLoaded = true)

theorem wf_of_parts (s s' : CacheState) (hi : ids s' = ids s) (hc : s'.chapters = s.chapters)
    (h : Wf s) : Wf s' := by
  unfold Wf at *
  rw [hi, hc]
  exact h

theorem clearMirror_of_some (chapterId : Nat) (s : CacheState) (ch : UnifiedChapterM)
    (h : s.chapters[chapterId]? = some ch) :
    clearMirror chapterId s =
      { s with chapters :=
          s.chapters.set chapterId { ch with layers := [], isLoaded := false } } := by
  unfold clearMirror
  rw [h]

/-- Method `cleanupBlobUrls` only appends to `revoked`, so well-formedness is kept. -/
theorem wf_cleanupBlobUrls (chapterId : Nat) (s : CacheState) (h : Wf s) :
    Wf (cleanupBlobUrls chapterId s) := by
  unfold cleanupBlobUrls
  split
  · exact h
  · exact h

theorem wf_evictIfNeeded (s : CacheState) (h : Wf s) : Wf (evictIfNeeded s) := by
  by_cases hle : s.cache.length ≤ 5
  · rw [evictIfNeeded_of_le s hle]
    exact h
  · obtain ⟨e, pre, post, hdec, hmin, hpre, heq⟩ := evictIfNeeded_of_gt s hle h.2.1
    have hmem : e ∈ s.cache := by
      rw [hdec]
      exact List.mem_append_right _ (List.mem_cons_self _ _)
    have hidmem : e.chapterId ∈ ids s := List.mem_map_of_mem CEntry.chapterId hmem
    have hlt : e.chapterId < s.chapters.length := h.1 _ hidmem
    obtain ⟨ch, hch⟩ : ∃ ch, s.chapters[e.chapterId]? = some ch := by
      cases hx : s.chapters[e.chapterId]? with
      | some c => exact ⟨c, rfl⟩
      | none =>
        rw [List.getElem?_eq_none_iff] at hx
        omega
    rw [heq, clearMirror_of_some e.chapterId { s with cache := pre ++ post } ch hch]
    apply wf_cleanupBlobUrls
    show Wf { s with
      cache := pre ++ post
      chapters := s.chapters.set e.chapterId { ch with layers := [], isLoaded := false } }
    have idsS : ids s = pre.map CEntry.chapterId
        ++ e.chapterId :: post.map CEntry.chapterId := by
      show s.cache.map CEntry.chapterId = _
      rw [hdec, List.map_append, List.map_cons]
    have hnd := h.2.1
    rw [idsS] at hnd
    have hnd_parts := List.nodup_append.mp hnd
    have fe_not_post : e.chapterId ∉ post.map CEntry.chapterId :=
      (List.nodup_cons.mp hnd_parts.2.1).1
    have fe_not_pre : e.chapterId ∉ pre.map CEntry.chapterId := fun hin =>
      hnd_parts.2.2 hin (List.mem_cons_self _ _)
    have ids2 : ids { s with
          cache := pre ++ post
          chapters := s.chapters.set e.chapterId { ch with layers := [], isLoaded := false } }
        = pre.map CEntry.chapterId ++ post.map CEntry.chapterId := by
      show (pre ++ post).map CEntry.chapterId = _
      rw [List.map_append]
    refine ⟨?_, ?_, ?_⟩
    · intro i hi
      rw [ids2, List.mem_append] at hi
      show i < (s.chapters.set e.chapterId _).length
      rw [List.length_set]
      apply h.1
      rw [idsS, List.mem_append]
      rcases hi with hi | hi
      · exact Or.inl hi
      · exact Or.inr (List.mem_cons_of_mem _ hi)
    · rw [ids2]
      exact List.Nodup.sublist
        (List.Sublist.append_left (List.sublist_cons_self _ _) _) hnd
    · intro i
      rw [ids2]
      by_cases hie : i = e.chapterId
      · subst hie
        constructor
        · intro hin
          rcases List.mem_append.mp hin with hin | hin
          · exact absurd hin fe_not_pre
          · exact absurd hin fe_not_post
        · rintro ⟨c, hc, hl⟩
          rw [List.getElem?_set_self hlt] at hc
          cases hc
          cases hl
      · have hset : (s.chapters.set e.chapterId
            { ch with layers := [], isLoaded := false })[i]? = s.chapters[i]? :=
          List.getElem?_set_ne (fun hh => hie hh.symm)
        rw [hset]
        rw [← h.2.2 i, idsS]
        rw [List.mem_append, List.mem_append, List.mem_cons]
        constructor
        · intro hin
          rcases hin with hin | hin
          · exact Or.inl hin
          · exact Or.inr (Or.inr hin)
        · intro hin
          rcases hin with hin | hin | hin
          · exact Or.inl hin
          · exact absurd hin hie
          · exact Or.inr hin

theorem ids_insert (s : CacheState) (en : CEntry) (chs : List UnifiedChapterM) :
    ids { s with cache := s.cache ++ [en], chapters := chs } = ids s ++ [en.chapterId] := by
  show (s.cache ++ [en]).map CEntry.chapterId = _
  rw [List.map_append]
  rfl

theorem not_resident_of_find?_none (chapterId : Nat) (s : CacheState)
    (hfind : ¬(s.cache.find? (fun e => e.chapterId == chapterId)).isSome = true) :
    chapterId ∉ ids s := by
  intro hin
  apply hfind
  rw [List.find?_isSome]
  obtain ⟨e, he, hfe⟩ := List.mem_map.mp hin
  exact ⟨e, he, by simp [hfe]⟩

theorem wf_getChapterStep (load : Nat → List ContentLayer) (t chapterId : Nat)
    (s : CacheState) (h : Wf s) : Wf (getChapterStep load t chapterId s) := by
  unfold getChapterStep
  split
  · exact wf_of_parts s _ (ids_refresh t chapterId s) rfl h
  · next hfind =>
    split
    · exact h
    · next ch hch =>
      apply wf_evictIfNeeded
      have hnot : chapterId ∉ ids s := not_resident_of_find?_none chapterId s hfind
      have hlt : chapterId < s.chapters.length := (List.getElem?_eq_some_iff.mp hch).1
      have ids1 := ids_insert s ⟨chapterId, load chapterId, t⟩
        (s.chapters.set chapterId { ch with layers := load chapterId, isLoaded := true })
      refine ⟨?_, ?_, ?_⟩
      · intro i hi
        rw [ids1, List.mem_append] at hi
        show i < (s.chapters.set chapterId _).length
        rw [List.length_set]
        rcases hi with hi | hi
        · exact h.1 i hi
        · simp only [List.mem_singleton] at hi
          subst hi
          exact hlt
      · rw [ids1, List.nodup_append]
        refine ⟨h.2.1, List.nodup_singleton _, ?_⟩
        intro a ha hb
        simp only [List.mem_singleton] at hb
        rw [hb] at ha
        exact hnot ha
      · intro i
        rw [ids1, List.mem_append, List.mem_singleton]
        by_cases hie : i = chapterId
        · subst hie
          constructor
          · intro _
            exact ⟨{ ch with layers := load i, isLoaded := true },
              List.getElem?_set_self hlt, rfl⟩
          · intro _
            exact Or.inr rfl
        · have hset : (s.chapters.set chapterId
              { ch with layers := load chapterId, isLoaded := true })[i]? = s.chapters[i]? :=
            List.getElem?_set_ne (fun hh => hie hh.symm)
          rw [hset, ← h.2.2 i]
          constructor
          · intro hin
            rcases hin with hin | hin
            · exact hin
            · exact absurd hin hie
          · exact Or.inl

/-- Pairwise-distinct resident ids, preserved by every operation. -/
theorem idsNodup_evictIfNeeded (s : CacheState) (hnd : (ids s).Nodup) :
    (ids (evictIfNeeded s)).Nodup := by
  by_cases hle : s.cache.length ≤ 5
  · rw [evictIfNeeded_of_le s hle]
    exact hnd
  · obtain ⟨e, pre, post, hdec, _, _, heq⟩ := evictIfNeeded_of_gt s hle hnd
    have idsS : ids s = pre.map CEntry.chapterId
        ++ e.chapterId :: post.map CEntry.chapterId := by
      show s.cache.map CEntry.chapterId = _
      rw [hdec, List.map_append, List.map_cons]
    rw [idsS] at hnd
    have : ids (evictIfNeeded s) = pre.map CEntry.chapterId ++ post.map CEntry.chapterId := by
      rw [heq]
      show ((cleanupBlobUrls _ _).cache).map CEntry.chapterId = _
      rw [cleanupBlobUrls_cache, clearMirror_cache]
      show (pre ++ post).map CEntry.chapterId = _
      rw [List.map_append]
    rw [this]
    exact List.Nodup.sublist
      (List.Sublist.append_left (List.sublist_cons_self _ _) _) hnd

theorem idsNodup_getChapterStep (load : Nat → List ContentLayer) (t chapterId : Nat)
    (s : CacheState) (hnd : (ids s).Nodup) :
    (ids (getChapterStep load t chapterId s)).Nodup := by
  unfold getChapterStep
  split
  · next hfind =>
    rw [ids_refresh t chapterId s]
    exact hnd
  · next hfind =>
    split
    · exact hnd
    · next ch hch =>
      apply idsNodup_evictIfNeeded
      rw [ids_insert s ⟨chapterId, load chapterId, t⟩ _, List.nodup_append]
      refine ⟨hnd, List.nodup_singleton _, ?_⟩
      intro a ha hb
      simp only [List.mem_singleton] at hb
      rw [hb] at ha
      exact not_resident_of_find?_none chapterId s hfind ha

theorem cache_length_getChapterStep (load : Nat → List ContentLayer) (t chapterId : Nat)
    (s : CacheState) (hnd : (ids s).Nodup) (hlen : s.cache.length ≤ 5) :
    (getChapterStep load t chapterId s).cache.length ≤ 5 := by
  unfold getChapterStep
  split
  · simp only [List.length_map]
    exact hlen
  · next hfind =>
    split
    · exact hlen
    · next ch hch =>
      have hnd1 : (ids { s with
          cache := s.cache ++ [⟨chapterId, load chapterId, t⟩]
          chapters := s.chapters.set chapterId
            { ch with layers := load chapterId, isLoaded := true } }).Nodup := by
        rw [ids_insert s ⟨chapterId, load chapterId, t⟩ _, List.nodup_append]
        refine ⟨hnd, List.nodup_singleton _, ?_⟩
        intro a ha hb
        simp only [List.mem_singleton] at hb
        rw [hb] at ha
        exact not_resident_of_find?_none chapterId s hfind ha
      rw [evictIfNeeded_cache_length _ hnd1]
      show (if (s.cache ++ [_]).length ≤ 5 then (s.cache ++ [_]).length
        else (s.cache ++ [_]).length - 1) ≤ 5
      rw [List.length_append]
      simp only [List.length_singleton]
      split <;> omega

theorem foldl_cleanup_chapters (l : List CEntry) (s : CacheState) :
    (l.foldl (fun acc e => cleanupBlobUrls e.chapterId acc) s).chapters = s.chapters := by
  induction l generalizing s with
  | nil => rfl
  | cons e rest ih =>
    rw [List.foldl_cons, ih, cleanupBlobUrls_chapters]

theorem clearCache_cache (s : CacheState) : (clearCache s).cache = [] := rfl

theorem clearCache_prefetchQueue (s : CacheState) : (clearCache s).prefetchQueue = [] := rfl

theorem clearCache_chapters (s : CacheState) : (clearCache s).chapters = s.chapters := by
  show (s.cache.foldl (fun acc e => cleanupBlobUrls e.chapterId acc) s).chapters = s.chapters
  exact foldl_cleanup_chapters s.cache s

/-- The capacity invariant preserved by every completed operation. -/
def WfLen (s : CacheState) : Prop := (ids s).Nodup ∧ s.cache.length ≤ 5

theorem wfLen_runOp (load : Nat → List ContentLayer) (s : CacheState) (op : CacheOp)
    (h : WfLen s) : WfLen (runOp load s op) := by
  cases op with
  | get t chapterId =>
    exact ⟨idsNodup_getChapterStep load t chapterId s h.1,
      cache_length_getChapterStep load t chapterId s h.1 h.2⟩
  | clear =>
    constructor
    · show ((clearCache s).cache.map CEntry.chapterId).Nodup
      rw [clearCache_cache]
      exact List.nodup_nil
    · show (clearCache s).cache.length ≤ 5
      rw [clearCache_cache]
      simp

theorem wfLen_runOps (load : Nat → List ContentLayer) (ops : List CacheOp) (s : CacheState)
    (h : WfLen s) : WfLen (runOps load ops s) := by
  induction ops generalizing s with
  | nil => exact h
  | cons op rest ih => exact ih (runOp load s op) (wfLen_runOp load s op h)

/-- A sequence of completed `getChapter` calls, each with its completion time. -/
def runGets (load : Nat → List ContentLayer) (ops : List (Nat × Nat)) (s : CacheState) :
    CacheState :=
  ops.foldl (fun s p => getChapterStep load p.1 p.2 s) s

theorem wf_runGets (load : Nat → List ContentLayer) (ops : List (Nat × Nat)) (s : CacheState)
    (h : Wf s) : Wf (runGets load ops s) := by
  induction ops generalizing s with
  | nil => exact h
  | cons p rest ih =>
    exact ih (getChapterStep load p.1 p.2 s) (wf_getChapterStep load p.1 p.2 s h)

theorem wf_initState (chapters0 : List UnifiedChapterM)
    (h0 : ∀ c ∈ chapters0, c.isLoaded = false) : Wf (initState chapters0) := by
  refine ⟨?_, ?_, ?_⟩
  · intro i hi
    exact absurd hi (by simp [ids, initState])
  · show (([] : List CEntry).map CEntry.chapterId).Nodup
    exact List.nodup_nil
  · intro i
    constructor
    · intro hi
      exact absurd hi (by simp [ids, initState])
    · rintro ⟨c, hc, hl⟩
      exfalso
      have hm : c ∈ chapters0 := by
        have : c ∈ (initState chapters0).chapters := List.getElem?_mem hc
        exact this
      rw [h0 c hm] at hl
      cases hl

end ChapterCache

/-! ## Case equations for the loadChapter entry points -/

namespace TxtAdapter

theorem txt_loadChapter_none (book : UnifiedBookM) (chapterId : Nat)
    (hch : book.chapters[chapterId]? = none) :
    loadChapter book chapterId = .error ("章节 " ++ toString chapterId ++ " 不存在") := by
  unfold loadChapter
  rw [hch]

theorem txt_loadChapter_some (book : UnifiedBookM) (chapterId : Nat) (ch : UnifiedChapterM)
    (hch : book.chapters[chapterId]? = some ch) :
    loadChapter book chapterId =
      if ch.isLoaded = true ∧ ch.layers ≠ [] then .ok ch.layers
      else .ok (chunkParagraphs (collectParagraphs (jsSplit '\n' book.rawText)
        (findChapterBounds (jsSplit '\n' book.rawText) ch.title chapterId book.chapters).1
        (findChapterBounds (jsSplit '\n' book.rawText) ch.title chapterId book.chapters).2)) := by
  unfold loadChapter
  rw [hch]

end TxtAdapter

namespace EpubAdapter

theorem epub_loadChapter_none (env : Nat → Option String → SectionResult)
    (fetch : String → Option String) (book : UnifiedBookM) (chapterId : Nat)
    (hch : book.chapters[chapterId]? = none) :
    loadChapter env fetch book chapterId =
      .error ("章节 " ++ toString chapterId ++ " 不存在") := by
  unfold loadChapter
  rw [hch]

theorem epub_loadChapter_some (env : Nat → Option String → SectionResult)
    (fetch : String → Option String) (book : UnifiedBookM) (chapterId : Nat)
    (ch : UnifiedChapterM) (hch : book.chapters[chapterId]? = some ch) :
    loadChapter env fetch book chapterId =
      if ch.isLoaded = true ∧ ch.layers ≠ [] then .ok ch.layers
      else
        match env chapterId ch.href with
        | .notFound =>
          .ok [⟨["章节 \"" ++ ch.title ++ "\" 内容不存在或无法加载"], 0, none⟩]
        | .loadError msg =>
          .ok [⟨["章节 \"" ++ ch.title ++ "\" 加载失败", "错误信息: " ++ msg], 0, none⟩]
        | .emptyDoc => .ok [⟨["章节 \"" ++ ch.title ++ "\" 内容为空"], 0, none⟩]
        | .withDoc basePath body => .ok (parseHTML fetch basePath body) := by
  unfold loadChapter
  rw [hch]

end EpubAdapter

/-! ## Claim theorems -/

/-- C1: for every chapter load (of a freshly parsed book, so the adapter's
cached-return shortcut does not apply), the returned layer sequence satisfies
the data-model index invariant: every consecutive pair of layers satisfies
`layer[n+1].startIndex = layer[n].startIndex + len(layer[n].paragraphs) +
(1 if layer[n].image else 0)`. -/
theorem claim_C1_index_continuity (book : UnifiedBookM) (chapterId : Nat)
    (env : Nat → Option String → EpubAdapter.SectionResult)
    (fetch : String → Option String) (layers : List ContentLayer)
    (hfresh : ∀ ch ∈ book.chapters, ch.isLoaded = false) :
    (TxtAdapter.loadChapter book chapterId = .ok layers →
      List.Chain' layerChain layers)
    ∧ (EpubAdapter.loadChapter env fetch book chapterId = .ok layers →
      List.Chain' layerChain layers) := by
  constructor
  · intro h
    unfold TxtAdapter.loadChapter at h
    split at h
    · exact Except.noConfusion h
    · next ch hch =>
      split at h
      · next hcached =>
        exfalso
        have hload : ch.isLoaded = false := hfresh ch (List.getElem?_mem hch)
        rw [hload] at hcached
        simp at hcached
      · cases h
        exact (TxtAdapter.chunkParagraphs_inv _).2.2.1
  · intro h
    unfold EpubAdapter.loadChapter at h
    split at h
    · exact Except.noConfusion h
    · next ch hch =>
      split at h
      · next hcached =>
        exfalso
        have hload : ch.isLoaded = false := hfresh ch (List.getElem?_mem hch)
        rw [hload] at hcached
        simp at hcached
      · split at h <;> cases h
        · exact List.chain'_singleton _
        · exact List.chain'_singleton _
        · exact List.chain'_singleton _
        · exact EpubAdapter.parseHTML_chain fetch _ _

/-- Witness for C1 at a one-chapter plain-text book and a failing EPUB
section resolution. -/
theorem claim_C1_index_continuity_witness :
    List.Chain' layerChain [ContentLayer.mk ["x"] 0 none]
      ∧ List.Chain' layerChain
        [ContentLayer.mk ["章节 \"t\" 内容不存在或无法加载"] 0 none] := by
  constructor
  · exact (claim_C1_index_continuity ⟨[⟨"t", none, [], false⟩], "x"⟩ 0
      (fun _ _ => .notFound) (fun _ => none) [⟨["x"], 0, none⟩]
      (by decide)).1 rfl
  · exact (claim_C1_index_continuity ⟨[⟨"t", none, [], false⟩], "x"⟩ 0
      (fun _ _ => .notFound) (fun _ => none)
      [⟨["章节 \"t\" 内容不存在或无法加载"], 0, none⟩]
      (by decide)).2 rfl

/-- C2: one chunking call — `TxtAdapter.chunkParagraphs` or
`EpubAdapter.addParagraphsWithChunking` — reproduces its input paragraph
sequence exactly when the produced layers' paragraph arrays are concatenated
in order: nothing is dropped, duplicated, split or reordered. -/
theorem claim_C2_roundtrip (ps : List String) (start : Nat) (image : Option String) :
    flatParas (TxtAdapter.chunkParagraphs ps) = ps
    ∧ flatParas (EpubAdapter.addParagraphsWithChunking ps start image).1 = ps :=
  ⟨TxtAdapter.chunkParagraphs_flat ps, EpubAdapter.addChunk_flat ps start image⟩

/-- C3: a layer produced by either chunking call with two or more paragraphs
has paragraph-length sum at most `MAX_LAYER_LENGTH` (15000); a layer over the
cap is a single paragraph that alone exceeds the cap. -/
theorem claim_C3_size_bound (ps : List String) (start : Nat) (image : Option String)
    (L : ContentLayer)
    (hL : L ∈ TxtAdapter.chunkParagraphs ps
      ∨ L ∈ (EpubAdapter.addParagraphsWithChunking ps start image).1) :
    (2 ≤ L.paragraphs.length → paraSum L.paragraphs ≤ MAX_LAYER_LENGTH)
    ∧ (MAX_LAYER_LENGTH < paraSum L.paragraphs →
        ∃ p, L.paragraphs = [p] ∧ MAX_LAYER_LENGTH < p.length) := by
  have hcap : 2 ≤ L.paragraphs.length → paraSum L.paragraphs ≤ MAX_LAYER_LENGTH := by
    rcases hL with h | h
    · exact (TxtAdapter.chunkParagraphs_inv ps).1 L h
    · exact EpubAdapter.addChunk_cap ps start image L h
  refine ⟨hcap, ?_⟩
  intro hgt
  cases hlen : L.paragraphs with
  | nil =>
    rw [hlen] at hgt
    simp [paraSum, MAX_LAYER_LENGTH] at hgt
  | cons p rest =>
    cases rest with
    | nil =>
      refine ⟨p, rfl, ?_⟩
      rw [hlen] at hgt
      simpa [paraSum] using hgt
    | cons q rest2 =>
      exfalso
      have hge : 2 ≤ L.paragraphs.length := by
        rw [hlen]
        simp only [List.length_cons]
        omega
      exact absurd hgt (Nat.not_lt.mpr (hcap hge))

/-- Witness for C3 on a single short paragraph. -/
theorem claim_C3_size_bound_witness :
    (2 ≤ (ContentLayer.mk ["a"] 0 none).paragraphs.length →
      paraSum (ContentLayer.mk ["a"] 0 none).paragraphs ≤ MAX_LAYER_LENGTH)
    ∧ (MAX_LAYER_LENGTH < paraSum (ContentLayer.mk ["a"] 0 none).paragraphs →
        ∃ p, (ContentLayer.mk ["a"] 0 none).paragraphs = [p]
          ∧ MAX_LAYER_LENGTH < p.length) :=
  claim_C3_size_bound ["a"] 0 none ⟨["a"], 0, none⟩ (Or.inl (by decide))

/-- C4: after any finite sequence of completed cache operations starting from
a fresh cache, the resident entry count reported by `getStats` never exceeds
the capacity 5. -/
theorem claim_C4_cache_capacity (load : Nat → List ContentLayer)
    (ops : List ChapterCache.CacheOp) (chapters0 : List UnifiedChapterM) :
    (ChapterCache.getStats
      (ChapterCache.runOps load ops (ChapterCache.initState chapters0))).1 ≤ 5 := by
  have h := ChapterCache.wfLen_runOps load ops (ChapterCache.initState chapters0)
    ⟨List.nodup_nil, by simp [ChapterCache.initState]⟩
  exact h.2

/-- C5: whenever eviction fires (more than 5 resident entries, with the
map-keyed cache holding pairwise-distinct ids), the removed entry has the
minimum `lastAccess` over all resident entries, and among ties it is the
earliest-inserted one: every entry before it in insertion order is strictly
younger-accessed. -/
theorem claim_C5_lru_eviction (s : ChapterCache.CacheState)
    (hnd : (ChapterCache.ids s).Nodup) (hgt : 5 < s.cache.length) :
    ∃ e pre post, s.cache = pre ++ e :: post
      ∧ (ChapterCache.evictIfNeeded s).cache = pre ++ post
      ∧ (∀ x ∈ s.cache, e.lastAccess ≤ x.lastAccess)
      ∧ (∀ x ∈ pre, e.lastAccess < x.lastAccess) := by
  obtain ⟨e, pre, post, hdec, hmin, hpre, heq⟩ :=
    ChapterCache.evictIfNeeded_of_gt s (by omega) hnd
  refine ⟨e, pre, post, hdec, ?_, hmin, hpre⟩
  rw [heq, ChapterCache.cleanupBlobUrls_cache, ChapterCache.clearMirror_cache]

/-- Witness for C5 on a six-entry cache with a tie on the minimum. -/
theorem claim_C5_lru_eviction_witness :
    ∃ e pre post,
      (ChapterCache.CacheState.mk
        [⟨0, [], 3⟩, ⟨1, [], 1⟩, ⟨2, [], 2⟩, ⟨3, [], 1⟩, ⟨4, [], 4⟩, ⟨5, [], 5⟩]
        [] [] []).cache = pre ++ e :: post
      ∧ (ChapterCache.evictIfNeeded (ChapterCache.CacheState.mk
          [⟨0, [], 3⟩, ⟨1, [], 1⟩, ⟨2, [], 2⟩, ⟨3, [], 1⟩, ⟨4, [], 4⟩, ⟨5, [], 5⟩]
          [] [] [])).cache = pre ++ post
      ∧ (∀ x ∈ (ChapterCache.CacheState.mk
          [⟨0, [], 3⟩, ⟨1, [], 1⟩, ⟨2, [], 2⟩, ⟨3, [], 1⟩, ⟨4, [], 4⟩, ⟨5, [], 5⟩]
          [] [] []).cache, e.lastAccess ≤ x.lastAccess)
      ∧ (∀ x ∈ pre, e.lastAccess < x.lastAccess) :=
  claim_C5_lru_eviction _ (by decide) (by decide)

/-- The six-chapter book of the C6 run. -/
def c6book : List UnifiedChapterM := List.replicate 6 ⟨"t", none, [], false⟩

/-- Chapter 0 carries one blob-URL image layer; the others are plain text. -/
def c6load : Nat → List ContentLayer := fun chapterId =>
  if chapterId = 0 then [⟨[], 0, some "blob:img0"⟩] else [⟨["x"], 0, none⟩]

/-- Six `getChapter` calls at increasing times; the sixth one evicts
chapter 0. -/
def c6ops : List ChapterCache.CacheOp :=
  [.get 0 0, .get 1 1, .get 2 2, .get 3 3, .get 4 4, .get 5 5]

/-- C6 (failing run): the sixth load evicts chapter 0, whose cache entry holds
the image handle `blob:img0`; `evictIfNeeded` clears the book mirror's layers
before calling `cleanupBlobUrls`, which reads those just-cleared layers, so
the eviction revokes nothing (`revoked = []`) even though the evicted chapter
owned a blob URL. -/
theorem claim_C6_eviction_revokes_nothing :
    ChapterCache.ids (ChapterCache.runOps c6load c6ops (ChapterCache.initState c6book))
        = [1, 2, 3, 4, 5]
    ∧ (ChapterCache.runOps c6load c6ops (ChapterCache.initState c6book)).revoked = []
    ∧ some "blob:img0" ∈ (c6load 0).map ContentLayer.image := by
  decide

/-- The one-chapter book of the C7 counterexample run. -/
def c7book : List UnifiedChapterM := [⟨"t", none, [], false⟩]

def c7load : Nat → List ContentLayer := fun _ => [⟨["x"], 0, none⟩]

/-- C7 counterexample: after `getChapter(0)` followed by `clear()`, the cache
map is empty but chapter 0 is still marked `isLoaded` with retained layers —
`clear()` never resets the book mirrors, refuting the claim that `isLoaded`
is true exactly on the resident ids after any operation sequence. -/
theorem claim_C7_counterexample :
    (ChapterCache.clearCache
      (ChapterCache.getChapterStep c7load 0 0 (ChapterCache.initState c7book))).cache = []
    ∧ ∃ c, (ChapterCache.clearCache
        (ChapterCache.getChapterStep c7load 0 0
          (ChapterCache.initState c7book))).chapters[0]? = some c
      ∧ c.isLoaded = true ∧ c.layers ≠ [] := by
  refine ⟨rfl, ⟨"t", none, [⟨["x"], 0, none⟩], true⟩, ?_, rfl, by decide⟩
  decide

/-- C7 amended: the `isLoaded` flag mirrors residency after any sequence of
completed `getChapter` calls on a fresh book; `clear()` empties the cache map
and the in-flight set but leaves the book mirrors untouched, so chapters
resident at `clear()` time stay marked `isLoaded` with retained layers. -/
theorem claim_C7_amended_mirror (load : Nat → List ContentLayer)
    (ops : List (Nat × Nat)) (chapters0 : List UnifiedChapterM)
    (h0 : ∀ c ∈ chapters0, c.isLoaded = false) :
    (∀ i : Nat,
      i ∈ ChapterCache.ids (ChapterCache.runGets load ops (ChapterCache.initState chapters0))
      ↔ ∃ c, (ChapterCache.runGets load ops
          (ChapterCache.initState chapters0)).chapters[i]? = some c
        ∧ c.isLoaded = true)
    ∧ (∀ s : ChapterCache.CacheState, (ChapterCache.clearCache s).cache = []
        ∧ (ChapterCache.clearCache s).prefetchQueue = []
        ∧ (ChapterCache.clearCache s).chapters = s.chapters) := by
  constructor
  · exact (ChapterCache.wf_runGets load ops _ (ChapterCache.wf_initState chapters0 h0)).2.2
  · intro s
    exact ⟨ChapterCache.clearCache_cache s, ChapterCache.clearCache_prefetchQueue s,
      ChapterCache.clearCache_chapters s⟩

/-- Witness for the amended C7 on a one-chapter book and one get. -/
theorem claim_C7_amended_mirror_witness :
    (∀ i : Nat,
      i ∈ ChapterCache.ids (ChapterCache.runGets c7load [(0, 0)]
        (ChapterCache.initState c7book))
      ↔ ∃ c, (ChapterCache.runGets c7load [(0, 0)]
          (ChapterCache.initState c7book)).chapters[i]? = some c
        ∧ c.isLoaded = true)
    ∧ (∀ s : ChapterCache.CacheState, (ChapterCache.clearCache s).cache = []
        ∧ (ChapterCache.clearCache s).prefetchQueue = []
        ∧ (ChapterCache.clearCache s).chapters = s.chapters) :=
  claim_C7_amended_mirror c7load [(0, 0)] c7book (by decide)

/-- C8: `loadChapter` of both adapters raises exactly on an out-of-range
chapter id; for a valid, not-yet-loaded id, every section resolution, load or
parse failure in the EPUB adapter returns a single diagnostic layer instead of
raising. -/
theorem claim_C8_error_iff_out_of_range (book : UnifiedBookM) (chapterId : Nat)
    (env : Nat → Option String → EpubAdapter.SectionResult)
    (fetch : String → Option String) :
    ((∃ msg, TxtAdapter.loadChapter book chapterId = .error msg)
        ↔ book.chapters.length ≤ chapterId)
    ∧ ((∃ msg, EpubAdapter.loadChapter env fetch book chapterId = .error msg)
        ↔ book.chapters.length ≤ chapterId)
    ∧ (∀ ch, book.chapters[chapterId]? = some ch →
        ¬(ch.isLoaded = true ∧ ch.layers ≠ []) →
        (env chapterId ch.href = .notFound
          ∨ (∃ m, env chapterId ch.href = .loadError m)
          ∨ env chapterId ch.href = .emptyDoc) →
        ∃ L, EpubAdapter.loadChapter env fetch book chapterId = .ok [L]) := by
  refine ⟨⟨?_, ?_⟩, ⟨?_, ?_⟩, ?_⟩
  · rintro ⟨msg, hmsg⟩
    by_contra hlt
    rw [Nat.not_le] at hlt
    obtain ⟨ch, hch⟩ : ∃ ch, book.chapters[chapterId]? = some ch :=
      ⟨_, List.getElem?_eq_getElem hlt⟩
    rw [TxtAdapter.txt_loadChapter_some book chapterId ch hch] at hmsg
    split at hmsg <;> exact Except.noConfusion hmsg
  · intro hlen
    exact ⟨_, TxtAdapter.txt_loadChapter_none book chapterId
      (List.getElem?_eq_none_iff.mpr hlen)⟩
  · rintro ⟨msg, hmsg⟩
    by_contra hlt
    rw [Nat.not_le] at hlt
    obtain ⟨ch, hch⟩ : ∃ ch, book.chapters[chapterId]? = some ch :=
      ⟨_, List.getElem?_eq_getElem hlt⟩
    rw [EpubAdapter.epub_loadChapter_some env fetch book chapterId ch hch] at hmsg
    split at hmsg
    · exact Except.noConfusion hmsg
    · split at hmsg <;> exact Except.noConfusion hmsg
  · intro hlen
    exact ⟨_, EpubAdapter.epub_loadChapter_none env fetch book chapterId
      (List.getElem?_eq_none_iff.mpr hlen)⟩
  · intro ch hch hnc henv
    rw [EpubAdapter.epub_loadChapter_some env fetch book chapterId ch hch, if_neg hnc]
    rcases henv with henv | ⟨m, henv⟩ | henv <;> rw [henv]
    · exact ⟨_, rfl⟩
    · exact ⟨_, rfl⟩
    · exact ⟨_, rfl⟩

/-- Witness for C8 on a one-chapter book with a failing section resolution. -/
theorem claim_C8_error_iff_out_of_range_witness :
    ((∃ msg, TxtAdapter.loadChapter ⟨c7book, "x"⟩ 0 = .error msg)
        ↔ (⟨c7book, "x"⟩ : UnifiedBookM).chapters.length ≤ 0)
    ∧ ((∃ msg, EpubAdapter.loadChapter (fun _ _ => .notFound) (fun _ => none)
          ⟨c7book, "x"⟩ 0 = .error msg)
        ↔ (⟨c7book, "x"⟩ : UnifiedBookM).chapters.length ≤ 0)
    ∧ (∀ ch, (⟨c7book, "x"⟩ : UnifiedBookM).chapters[0]? = some ch →
        ¬(ch.isLoaded = true ∧ ch.layers ≠ []) →
        ((fun (_ : Nat) (_ : Option String) => EpubAdapter.SectionResult.notFound) 0 ch.href
            = .notFound
          ∨ (∃ m, (fun (_ : Nat) (_ : Option String) =>
              EpubAdapter.SectionResult.notFound) 0 ch.href = .loadError m)
          ∨ (fun (_ : Nat) (_ : Option String) =>
              EpubAdapter.SectionResult.notFound) 0 ch.href = .emptyDoc) →
        ∃ L, EpubAdapter.loadChapter (fun _ _ => .notFound) (fun _ => none)
          ⟨c7book, "x"⟩ 0 = .ok [L]) :=
  claim_C8_error_iff_out_of_range ⟨c7book, "x"⟩ 0 (fun _ _ => .notFound) (fun _ => none)

/-- C9: during the EPUB tree walk, a failed image — an external `http(s)` URL
(an explicit resolution failure) or a failed container fetch — is skipped
entirely: the walk state is returned unchanged (no error, no index advance,
pending paragraphs kept, nothing flushed). -/
theorem claim_C9_image_failure_contained (fetch : String → Option String)
    (basePath : String) (src text : String) (children : List EpubAdapter.DomNode)
    (s : EpubAdapter.WalkState)
    (hfail : (EpubAdapter.resolveImagePath basePath src).bind fetch = none) :
    EpubAdapter.processChild fetch basePath
      (EpubAdapter.DomNode.mk "img" (some src) text children) s = s := by
  unfold EpubAdapter.processChild
  rw [if_neg (by decide), if_neg (by decide), if_pos (by decide : lowerStr "img" = "img")]
  rw [EpubAdapter.handleImg_some]
  by_cases hsrc : src = ""
  · rw [if_pos hsrc]
  · rw [if_neg hsrc, hfail]

/-- Witness for C9: an external image URL inside a walk with pending text. -/
theorem claim_C9_image_failure_contained_witness :
    EpubAdapter.processChild (fun _ => none) "OEBPS/ch1.xhtml"
      (EpubAdapter.DomNode.mk "img" (some "http://host/a.png") "" [])
      ⟨[], ["p1"], 0⟩ = ⟨[], ["p1"], 0⟩ :=
  claim_C9_image_failure_contained (fun _ => none) "OEBPS/ch1.xhtml"
    "http://host/a.png" "" [] ⟨[], ["p1"], 0⟩ (by decide)

/-- C10: `TxtAdapter.chunkParagraphs` never emits an empty layer: every layer
holds at least one paragraph and no image; a non-empty input's first layer has
`startIndex = 0`; the empty input yields the empty layer list. -/
theorem claim_C10_no_empty_layers (ps : List String) :
    (∀ L ∈ TxtAdapter.chunkParagraphs ps, L.paragraphs ≠ [] ∧ L.image = none)
    ∧ (ps ≠ [] → ∃ L rest, TxtAdapter.chunkParagraphs ps = L :: rest ∧ L.startIndex = 0)
    ∧ TxtAdapter.chunkParagraphs [] = [] := by
  refine ⟨(TxtAdapter.chunkParagraphs_inv ps).2.1, ?_, rfl⟩
  intro hne
  have hflat := TxtAdapter.chunkParagraphs_flat ps
  cases hres : TxtAdapter.chunkParagraphs ps with
  | nil =>
    rw [hres] at hflat
    rw [flatParas_nil] at hflat
    exact absurd hflat.symm hne
  | cons L rest =>
    refine ⟨L, rest, rfl, ?_⟩
    exact (TxtAdapter.chunkParagraphs_inv ps).2.2.2 L (by rw [hres]; rfl)

/-- Witness for C10 on a one-paragraph input. -/
theorem claim_C10_no_empty_layers_witness :
    (∀ L ∈ TxtAdapter.chunkParagraphs ["a"], L.paragraphs ≠ [] ∧ L.image = none)
    ∧ ((["a"] : List String) ≠ [] →
        ∃ L rest, TxtAdapter.chunkParagraphs ["a"] = L :: rest ∧ L.startIndex = 0)
    ∧ TxtAdapter.chunkParagraphs [] = [] :=
  claim_C10_no_empty_layers ["a"]

end Etread
